import Mathlib

/-!
Verification of `bogoDB/scripts/visualize_probabilities.py`.

The script draws `num_samples` exponential variates, reduces each to an
integer label with `(exp_values % num_nodes).astype(int)`, tabulates the
labels with a `Counter`, and divides by `num_samples` to obtain a
probability vector.  It then renders figures (binned expected counts of
width `bin_size = 10`) and prints a top-10 ranking of nodes by
probability.

Embedding choices:
* reals are modelled by `ℚ`; Python ints by `ℤ` (arbitrary precision);
* the numpy pseudo-random draw `np.random.exponential(scale, size)` after
  `np.random.seed(seed)` is a deterministic function of `(seed, scale,
  size)`; it is abstracted as an explicit list of sample values (an
  arbitrary `sampler` function in `runEstimator`).  Exponential variates
  are nonnegative, which appears as the hypothesis `∀ x ∈ expValues, 0 ≤ x`;
* numpy's `%` on floats with a positive (or negative nonzero) divisor is
  floored modulo, `x - n * ⌊x / n⌋` (`pyMod`); `.astype(int)` truncates
  toward zero (`truncToInt`);
* Python's `//` on ints is floor division, Lean's `Int.fdiv`;
* `np.argmax` returns the index of the first occurrence of the maximum
  (numpy documentation), embedded as `npArgmax` via `List.indexOf`;
* Python's `sorted(enumerate(probabilities), key=lambda x: x[1],
  reverse=True)` is a stable sort, descending in the second component.
  On `enumerate` output the first components are pairwise distinct and
  increasing, so the stable descending sort coincides with the unique
  sort by the linear order "larger probability first, ties by smaller
  index first"; it is embedded as `mergeSort` by the total relation
  `rankLe`.
-/

/-- Floored modulo on rationals: numpy's `%` for a nonzero divisor,
`x % n = x - n * floor (x / n)` (the result has the sign of `n`). -/
def pyMod (x n : ℚ) : ℚ := x - n * ⌊x / n⌋

/-- Truncation toward zero, the semantics of numpy's `.astype(int)`. -/
def truncToInt (q : ℚ) : ℤ := if 0 ≤ q then ⌊q⌋ else ⌈q⌉

/-- Line 38: `scaled_values = (exp_values % num_nodes).astype(int)`. -/
def scaledValues (numNodes : ℤ) (expValues : List ℚ) : List ℤ :=
  expValues.map fun x => truncToInt (pyMod x (numNodes : ℚ))

/-- Line 41: `node_counts = Counter(scaled_values)`, read through
`node_counts.get(node, 0)` on line 45. -/
def nodeCounts (labels : List ℤ) (node : ℤ) : ℕ := labels.count node

/-- Line 44: `nodes = list(range(num_nodes))` (empty when
`num_nodes ≤ 0`, as in Python). -/
def nodes (numNodes : ℤ) : List ℤ :=
  (List.range numNodes.toNat).map (Nat.cast : ℕ → ℤ)

/-- Line 45: `probabilities = [node_counts.get(node, 0) / num_samples for
node in nodes]`.  The script draws `size=num_samples` variates, so
`num_samples = expValues.length`. -/
def probabilities (numNodes : ℤ) (expValues : List ℚ) : List ℚ :=
  (nodes numNodes).map fun node =>
    (nodeCounts (scaledValues numNodes expValues) node : ℚ) / (expValues.length : ℚ)

/-- Lines 34-45 and 140: the computational core of
`visualize_exponential_distribution`, from the drawn samples to the
returned pair `(nodes, probabilities)`.  The function body contains no
configuration check of any kind. -/
def visualizeCore (numNodes : ℤ) (expValues : List ℚ) : List ℤ × List ℚ :=
  (nodes numNodes, probabilities numNodes expValues)

/-- Lines 34-45: `np.random.seed(seed)` followed by
`np.random.exponential(scale=1 / lambda_param, size=num_samples)`,
with the seeded generator abstracted as a deterministic `sampler`
(seed → scale → size → samples). -/
def runEstimator (sampler : ℤ → ℚ → ℕ → List ℚ)
    (numNodes : ℤ) (lambdaParam : ℚ) (seed : ℤ) (numSamples : ℕ) :
    List ℤ × List ℚ :=
  visualizeCore numNodes (sampler seed (1 / lambdaParam) numSamples)

/-- Line 77: `np.argmax(probabilities)` — the index of the first
occurrence of the maximum value (per the numpy documentation; `0` on the
empty list never arises in the script). -/
def npArgmax (l : List ℚ) : ℕ :=
  WithBot.recBotCoe 0 (fun m => l.indexOf m) l.maximum

/-- Line 77: `max_prob_node = np.argmax(probabilities)`. -/
def maxProbNode (probs : List ℚ) : ℕ := npArgmax probs

/-- Line 110: `expected_counts = [prob * num_queries for prob in
probabilities]`. -/
def expectedCounts (probs : List ℚ) (numQueries : ℚ) : List ℚ :=
  probs.map fun p => p * numQueries

/-- Line 113: `bin_size = 10`. -/
def binSize : ℕ := 10

/-- Line 114: `num_bins = num_nodes // bin_size` (Python floor
division). -/
def numBins (numNodes : ℤ) : ℤ := numNodes.fdiv (binSize : ℤ)

/-- Lines 118-121: for each `i` in `range(num_bins)`, the sum of the
slice `expected_counts[i * bin_size : (i + 1) * bin_size]` (a slice of
width `bin_size`, clamped at the end of the list). -/
def binnedCounts (expected : List ℚ) (numNodes : ℤ) : List ℚ :=
  (List.range (numBins numNodes).toNat).map fun i =>
    ((expected.drop (i * binSize)).take binSize).sum

/-- The linear order realised by line 154's stable descending sort on
`enumerate(probabilities)`: larger probability first, ties by smaller
original index first. -/
def rankLe (a b : ℕ × ℚ) : Bool :=
  decide (b.2 < a.2 ∨ (a.2 = b.2 ∧ a.1 ≤ b.1))

/-- Line 154: `sorted_probs = sorted(enumerate(probabilities),
key=lambda x: x[1], reverse=True)`. -/
def sortedProbs (probs : List ℚ) : List (ℕ × ℚ) :=
  probs.enum.mergeSort rankLe

/-- Line 156: `sorted_probs[:10]`. -/
def topRanking (probs : List ℚ) : List (ℕ × ℚ) :=
  (sortedProbs probs).take 10

/-- Lines 156-158: the printed ranking entries
`(node, prob, expected_queries)` with
`expected_queries = prob * num_queries`. -/
def reportEntries (probs : List ℚ) (numQueries : ℚ) : List (ℕ × ℚ × ℚ) :=
  (topRanking probs).map fun p => (p.1, p.2, p.2 * numQueries)

/-! ### Arithmetic of the label reduction (line 38) -/

/-- For a positive divisor, the integer `n * ⌊x / n⌋` is at most `x`. -/
lemma floor_scaled_le (x : ℚ) (n : ℤ) (hn : 0 < n) :
    ((n * ⌊x / (n : ℚ)⌋ : ℤ) : ℚ) ≤ x := by
  have hn' : (0 : ℚ) < (n : ℚ) := by exact_mod_cast hn
  have h1 : ((⌊x / (n : ℚ)⌋ : ℤ) : ℚ) ≤ x / (n : ℚ) := Int.floor_le _
  have h2 : (n : ℚ) * ((⌊x / (n : ℚ)⌋ : ℤ) : ℚ) ≤ (n : ℚ) * (x / (n : ℚ)) :=
    mul_le_mul_of_nonneg_left h1 hn'.le
  have h3 : (n : ℚ) * (x / (n : ℚ)) = x := by field_simp
  push_cast
  linarith

/-- For a positive divisor, `x` is below `n * (⌊x / n⌋ + 1)`. -/
lemma lt_floor_scaled_succ (x : ℚ) (n : ℤ) (hn : 0 < n) :
    x < ((n * (⌊x / (n : ℚ)⌋ + 1) : ℤ) : ℚ) := by
  have hn' : (0 : ℚ) < (n : ℚ) := by exact_mod_cast hn
  have h1 : x / (n : ℚ) < ((⌊x / (n : ℚ)⌋ : ℤ) : ℚ) + 1 := Int.lt_floor_add_one _
  have h2 : (n : ℚ) * (x / (n : ℚ)) < (n : ℚ) * (((⌊x / (n : ℚ)⌋ : ℤ) : ℚ) + 1) :=
    mul_lt_mul_of_pos_left h1 hn'
  have h3 : (n : ℚ) * (x / (n : ℚ)) = x := by field_simp
  push_cast
  linarith

/-- The label computed on line 38 for a nonnegative sample `x` and a
positive `num_nodes` is exactly `⌊x⌋ % n`, and it lies in `[0, n)`. -/
lemma truncToInt_pyMod (x : ℚ) (n : ℤ) (hx : 0 ≤ x) (hn : 0 < n) :
    truncToInt (pyMod x (n : ℚ)) = ⌊x⌋ % n ∧ 0 ≤ ⌊x⌋ % n ∧ ⌊x⌋ % n < n := by
  have hmod0 : 0 ≤ pyMod x (n : ℚ) := by
    have := floor_scaled_le x n hn
    unfold pyMod
    push_cast at this ⊢
    linarith
  have hfloor : truncToInt (pyMod x (n : ℚ)) = ⌊x⌋ - n * ⌊x / (n : ℚ)⌋ := by
    unfold pyMod at hmod0
    unfold truncToInt pyMod
    rw [if_pos hmod0]
    have : x - (n : ℚ) * ((⌊x / (n : ℚ)⌋ : ℤ) : ℚ)
        = x - ((n * ⌊x / (n : ℚ)⌋ : ℤ) : ℚ) := by push_cast; ring
    rw [this, Int.floor_sub_int]
  have hr0 : 0 ≤ ⌊x⌋ - n * ⌊x / (n : ℚ)⌋ := by
    have h := floor_scaled_le x n hn
    have := Int.le_floor.mpr h
    omega
  have hr1 : ⌊x⌋ - n * ⌊x / (n : ℚ)⌋ < n := by
    have h := lt_floor_scaled_succ x n hn
    have hlt := Int.floor_lt.mpr h
    have hd : n * (⌊x / (n : ℚ)⌋ + 1) = n * ⌊x / (n : ℚ)⌋ + n := by ring
    rw [hd] at hlt
    omega
  have hsum : (⌊x⌋ - n * ⌊x / (n : ℚ)⌋) + n * ⌊x / (n : ℚ)⌋ = ⌊x⌋ := by ring
  have hmod : ⌊x⌋ % n = ⌊x⌋ - n * ⌊x / (n : ℚ)⌋ :=
    ((Int.ediv_emod_unique hn).mpr ⟨hsum, hr0, hr1⟩).2
  refine ⟨by rw [hfloor, hmod], ?_, ?_⟩
  · exact Int.emod_nonneg _ (ne_of_gt hn)
  · exact Int.emod_lt_of_pos _ hn

/-- Claim C1 (code behaviour at the failing input): with the non-positive
configuration `num_nodes = -5` (rate `1`, three samples drawn through the
sampler), `visualize_exponential_distribution` performs no configuration
check at all: it consumes the samples and returns the pair `([], [])`
normally instead of failing fast before sampling. -/
theorem C1_no_config_validation :
    runEstimator (fun _ _ k => List.replicate k ((21 : ℚ) / 2)) (-5) 1 42 3
      = ([], []) := rfl

/-- Claim C4: for every sample `x ≥ 0` and positive `num_nodes`, the label
computed on line 38 (truncating `x % num_nodes` to an integer) equals
`⌊x⌋ % num_nodes` and lies in `[0, num_nodes)`. -/
theorem C4_label_reduction (x : ℚ) (numNodes : ℤ)
    (hx : 0 ≤ x) (hn : 0 < numNodes) :
    truncToInt (pyMod x (numNodes : ℚ)) = ⌊x⌋ % numNodes ∧
    0 ≤ truncToInt (pyMod x (numNodes : ℚ)) ∧
    truncToInt (pyMod x (numNodes : ℚ)) < numNodes := by
  obtain ⟨h1, h2, h3⟩ := truncToInt_pyMod x numNodes hx hn
  exact ⟨h1, by rw [h1]; exact h2, by rw [h1]; exact h3⟩

/-- Witness for C4 at `x = 15/2`, `num_nodes = 3`: the hypotheses hold and
the conclusion follows by the theorem. -/
theorem C4_label_reduction_witness :
    (0 : ℚ) ≤ 15 / 2 ∧ (0 : ℤ) < 3 ∧
    (truncToInt (pyMod (15 / 2) ((3 : ℤ) : ℚ)) = ⌊(15 / 2 : ℚ)⌋ % 3 ∧
      0 ≤ truncToInt (pyMod (15 / 2) ((3 : ℤ) : ℚ)) ∧
      truncToInt (pyMod (15 / 2) ((3 : ℤ) : ℚ)) < 3) :=
  ⟨by norm_num, by norm_num, C4_label_reduction (15 / 2) 3 (by norm_num) (by norm_num)⟩

/-! ### Counting lemmas for the frequency table (lines 41-45) -/

/-- Summing an indicator over a list not containing the point gives 0. -/
lemma sum_map_ite_zero (L : List ℤ) (x : ℤ) (hx : x ∉ L) :
    (L.map fun a => if x = a then (1 : ℕ) else 0).sum = 0 := by
  induction L with
  | nil => simp
  | cons a L ih =>
    simp only [List.mem_cons, not_or] at hx
    simp [if_neg hx.1, ih hx.2]

/-- Summing an indicator over a duplicate-free list containing the point
gives 1. -/
lemma sum_map_ite_one (L : List ℤ) (x : ℤ) (hnd : L.Nodup) (hx : x ∈ L) :
    (L.map fun a => if x = a then (1 : ℕ) else 0).sum = 1 := by
  induction L with
  | nil => cases hx
  | cons a L ih =>
    rw [List.nodup_cons] at hnd
    by_cases hxa : x = a
    · subst hxa
      simp [sum_map_ite_zero L x hnd.1]
    · have hxL : x ∈ L := by
        rcases List.mem_cons.mp hx with h | h
        · exact absurd h hxa
        · exact h
      simp [if_neg hxa, ih hnd.2 hxL]

/-- Pointwise sums distribute over a mapped list. -/
lemma sum_map_add_nat (L : List ℤ) (f g : ℤ → ℕ) :
    (L.map fun a => f a + g a).sum = (L.map f).sum + (L.map g).sum := by
  induction L with
  | nil => simp
  | cons a L ih => simp [ih]; omega

/-- Summing the occurrence counts of a label list over a duplicate-free
list of labels covering it recovers the length of the label list. -/
lemma sum_map_count (L : List ℤ) (labels : List ℤ) (hnd : L.Nodup)
    (hsub : ∀ x ∈ labels, x ∈ L) :
    (L.map fun a => labels.count a).sum = labels.length := by
  induction labels with
  | nil => simp
  | cons x t ih =>
    have hx : x ∈ L := hsub x (List.mem_cons_self x t)
    have hsub' : ∀ y ∈ t, y ∈ L := fun y hy => hsub y (List.mem_cons_of_mem _ hy)
    have hfun : (fun a => (x :: t).count a)
        = fun a => t.count a + if x = a then 1 else 0 := by
      funext a
      simp [List.count_cons]
    rw [hfun, sum_map_add_nat, ih hsub', sum_map_ite_one L x hnd hx]
    simp

/-- Cast version of `sum_map_count` over `ℚ`. -/
lemma sum_map_count_cast (L : List ℤ) (labels : List ℤ) (hnd : L.Nodup)
    (hsub : ∀ x ∈ labels, x ∈ L) :
    (L.map fun a => ((labels.count a : ℕ) : ℚ)).sum = (labels.length : ℚ) := by
  have h := sum_map_count L labels hnd hsub
  have hmap : (L.map fun a => ((labels.count a : ℕ) : ℚ))
      = (L.map fun a => labels.count a).map (fun c : ℕ => (c : ℚ)) := by
    rw [List.map_map]
    rfl
  rw [hmap, ← Nat.cast_list_sum, h]

/-- The node list of line 44 has no duplicates. -/
lemma nodes_nodup (n : ℤ) : (nodes n).Nodup :=
  (List.nodup_range n.toNat).map Nat.cast_injective

/-- Every integer in `[0, n)` is a member of the node list of line 44. -/
lemma mem_nodes (n : ℤ) (a : ℤ) (h0 : 0 ≤ a) (h1 : a < n) : a ∈ nodes n := by
  unfold nodes
  rw [List.mem_map]
  refine ⟨a.toNat, List.mem_range.mpr ?_, Int.toNat_of_nonneg h0⟩
  exact (Int.toNat_lt_toNat (h0.trans_lt h1)).mpr h1

/-- Every label of line 38 lands in the node list when the samples are
nonnegative and `num_nodes` is positive. -/
lemma scaledValues_mem (n : ℤ) (e : List ℚ) (hn : 0 < n)
    (hxs : ∀ x ∈ e, 0 ≤ x) :
    ∀ a ∈ scaledValues n e, a ∈ nodes n := by
  intro a ha
  rw [scaledValues, List.mem_map] at ha
  obtain ⟨x, hx, rfl⟩ := ha
  obtain ⟨heq, h0, h1⟩ := truncToInt_pyMod x n (hxs x hx) hn
  rw [heq]
  exact mem_nodes _ _ h0 h1

/-- The probability vector of line 45 sums to exactly 1 when the
configuration is valid and the samples are nonnegative. -/
lemma probabilities_sum (n : ℤ) (e : List ℚ) (hn : 0 < n) (hne : e ≠ [])
    (hxs : ∀ x ∈ e, 0 ≤ x) :
    (probabilities n e).sum = 1 := by
  unfold probabilities nodeCounts
  simp only [div_eq_mul_inv]
  rw [List.sum_map_mul_right,
    sum_map_count_cast (nodes n) (scaledValues n e) (nodes_nodup n)
      (scaledValues_mem n e hn hxs)]
  have hlen : (scaledValues n e).length = e.length := List.length_map _ _
  rw [hlen]
  have hne' : (e.length : ℚ) ≠ 0 := by
    have : e.length ≠ 0 := fun h => hne (List.length_eq_zero.mp h)
    exact_mod_cast this
  exact mul_inv_cancel₀ hne'

/-- Claim C5: for a valid configuration (positive node count, at least one
sample) whose samples are nonnegative (exponential variates always are),
the probability vector sums to exactly 1 — in particular within every
floating tolerance. -/
theorem C5_probability_sum_one (numNodes : ℤ) (expValues : List ℚ)
    (hn : 0 < numNodes) (hne : expValues ≠ [])
    (hxs : ∀ x ∈ expValues, 0 ≤ x) :
    (probabilities numNodes expValues).sum = 1 :=
  probabilities_sum numNodes expValues hn hne hxs

/-- Witness for C5 at `num_nodes = 1` with the single sample `1/2`. -/
theorem C5_probability_sum_one_witness :
    (0 : ℤ) < 1 ∧ [(1 : ℚ) / 2] ≠ [] ∧
      (probabilities 1 [(1 : ℚ) / 2]).sum = 1 :=
  ⟨by decide, by simp,
    C5_probability_sum_one 1 [(1 : ℚ) / 2] (by decide) (by simp) (by norm_num)⟩

/-- Claim C6: for every valid configuration the probability vector has
length `num_nodes` and every entry is nonnegative. -/
theorem C6_probability_vector_shape (numNodes : ℤ) (expValues : List ℚ)
    (hn : 0 < numNodes) :
    ((probabilities numNodes expValues).length : ℤ) = numNodes ∧
    ∀ p ∈ probabilities numNodes expValues, 0 ≤ p := by
  constructor
  · rw [probabilities, List.length_map, nodes, List.length_map,
      List.length_range]
    exact Int.toNat_of_nonneg hn.le
  · intro p hp
    rw [probabilities, List.mem_map] at hp
    obtain ⟨node, _, rfl⟩ := hp
    exact div_nonneg (Nat.cast_nonneg _) (Nat.cast_nonneg _)

/-- Witness for C6 at `num_nodes = 2` with the single sample `1/2`. -/
theorem C6_probability_vector_shape_witness :
    (0 : ℤ) < 2 ∧
    (((probabilities 2 [(1 : ℚ) / 2]).length : ℤ) = 2 ∧
      ∀ p ∈ probabilities 2 [(1 : ℚ) / 2], 0 ≤ p) :=
  ⟨by decide, C6_probability_vector_shape 2 [(1 : ℚ) / 2] (by decide)⟩

/-- Claim C8: a label `k ∈ [0, num_nodes)` that occurs zero times among
the reduced samples is not omitted: position `k` exists in the
probability vector and holds exactly 0. -/
theorem C8_zero_count_label (numNodes : ℤ) (expValues : List ℚ) (k : ℤ)
    (hk0 : 0 ≤ k) (hkn : k < numNodes)
    (hzero : (scaledValues numNodes expValues).count k = 0) :
    k.toNat < (probabilities numNodes expValues).length ∧
    (probabilities numNodes expValues)[k.toNat]? = some 0 := by
  have hn : 0 < numNodes := hk0.trans_lt hkn
  have hlen : (probabilities numNodes expValues).length = numNodes.toNat := by
    rw [probabilities, List.length_map, nodes, List.length_map,
      List.length_range]
  have hklt : k.toNat < (probabilities numNodes expValues).length := by
    rw [hlen]
    exact (Int.toNat_lt_toNat hn).mpr hkn
  refine ⟨hklt, ?_⟩
  have hrange : k.toNat < numNodes.toNat := (Int.toNat_lt_toNat hn).mpr hkn
  rw [probabilities, nodes, List.getElem?_map, List.getElem?_map,
    List.getElem?_range hrange, Option.map_some', Option.map_some',
    Int.toNat_of_nonneg hk0, nodeCounts, hzero]
  norm_num

/-- Witness for C8 at `num_nodes = 2`, label `1`, sample `1/2` (which
reduces to label 0, so label 1 has count 0). -/
theorem C8_zero_count_label_witness :
    (0 : ℤ) ≤ 1 ∧ (1 : ℤ) < 2 ∧
    ((1 : ℤ).toNat < (probabilities 2 [(1 : ℚ) / 2]).length ∧
      (probabilities 2 [(1 : ℚ) / 2])[(1 : ℤ).toNat]? = some 0) :=
  ⟨by decide, by decide,
    C8_zero_count_label 2 [(1 : ℚ) / 2] 1 (by decide) (by decide)
      (by norm_num [scaledValues, pyMod, truncToInt, List.count_cons])⟩

/-- Claim C9: the estimator returns the pair `(nodes, probabilities)`;
its first component is the ascending list `[0, 1, ..., num_nodes - 1]`
(entry `i` equals `i`), with the same length as the probability vector. -/
theorem C9_nodes_ascending (numNodes : ℤ) (expValues : List ℚ)
    (hn : 0 < numNodes) :
    (((visualizeCore numNodes expValues).1.length : ℤ) = numNodes ∧
      (visualizeCore numNodes expValues).1.length
        = (visualizeCore numNodes expValues).2.length) ∧
    ∀ i, i < (visualizeCore numNodes expValues).1.length →
      (visualizeCore numNodes expValues).1[i]? = some (i : ℤ) := by
  refine ⟨⟨?_, ?_⟩, ?_⟩
  · show ((nodes numNodes).length : ℤ) = numNodes
    rw [nodes, List.length_map, List.length_range]
    exact Int.toNat_of_nonneg hn.le
  · show (nodes numNodes).length = (probabilities numNodes expValues).length
    rw [probabilities, List.length_map]
  · intro i hi
    have hi2 : i < (nodes numNodes).length := hi
    have hi' : i < numNodes.toNat := by
      rw [nodes, List.length_map, List.length_range] at hi2
      exact hi2
    show (nodes numNodes)[i]? = some (i : ℤ)
    rw [nodes, List.getElem?_map, List.getElem?_range hi', Option.map_some']

/-- Witness for C9 at `num_nodes = 2` with no samples. -/
theorem C9_nodes_ascending_witness :
    (0 : ℤ) < 2 ∧
    ((((visualizeCore 2 ([] : List ℚ)).1.length : ℤ) = 2 ∧
        (visualizeCore 2 ([] : List ℚ)).1.length
          = (visualizeCore 2 ([] : List ℚ)).2.length) ∧
      ∀ i, i < (visualizeCore 2 ([] : List ℚ)).1.length →
        (visualizeCore 2 ([] : List ℚ)).1[i]? = some (i : ℤ)) :=
  ⟨by decide, C9_nodes_ascending 2 [] (by decide)⟩

/-! ### Binning (lines 112-122) -/

/-- Concatenating the width-`binSize` slices of the first `k` bins
recovers the first `binSize * k` elements of the list. -/
lemma slices_flatten (l : List ℚ) (k : ℕ) :
    ((List.range k).map fun i => (l.drop (i * binSize)).take binSize).flatten
      = l.take (binSize * k) := by
  induction k with
  | zero => simp
  | succ k ih =>
    rw [List.range_succ, List.map_append, List.flatten_append, ih]
    simp only [List.map_cons, List.map_nil, List.flatten_cons, List.flatten_nil,
      List.append_nil]
    rw [Nat.mul_succ, List.take_add, Nat.mul_comm k binSize]

/-- The sum of the binned counts is the sum over the concatenated
slices. -/
lemma binnedCounts_sum_eq (E : List ℚ) (n : ℤ) :
    (binnedCounts E n).sum
      = (((List.range (numBins n).toNat).map fun i =>
          (E.drop (i * binSize)).take binSize).flatten).sum := by
  rw [List.sum_flatten, List.map_map]
  rfl

/-- When `binSize` divides a nonnegative `n`, the bins cover exactly `n`
nodes. -/
lemma bins_cover (n : ℤ) (hn : 0 ≤ n) (hdvd : (binSize : ℤ) ∣ n) :
    binSize * (numBins n).toNat = n.toNat := by
  have hq : numBins n = n / (binSize : ℤ) := by
    rw [numBins]
    exact Int.fdiv_eq_ediv n (by norm_num [binSize])
  have hq0 : 0 ≤ numBins n := by
    rw [hq]
    exact Int.ediv_nonneg hn (by norm_num [binSize])
  have key : ((binSize * (numBins n).toNat : ℕ) : ℤ) = (n.toNat : ℤ) := by
    push_cast [Int.toNat_of_nonneg hq0, Int.toNat_of_nonneg hn]
    rw [hq, mul_comm]
    exact Int.ediv_mul_cancel hdvd
  exact_mod_cast key

/-- The expected-count vector has one entry per node. -/
lemma expectedCounts_length (n : ℤ) (e : List ℚ) (q : ℚ) :
    (expectedCounts (probabilities n e) q).length = n.toNat := by
  rw [expectedCounts, List.length_map, probabilities, List.length_map,
    nodes, List.length_map, List.length_range]

/-- Claim C2 (amended): when the bin width 10 divides `num_nodes`, the
width-10 slices partition the expected-count vector (their concatenation
is the whole vector), the binned sums add up to exactly the sum of the
expected-count vector, and with `num_nodes = 10` there is exactly 1
bin. -/
theorem C2_bins_partition (numNodes : ℤ) (numQueries : ℚ) (expValues : List ℚ)
    (hn : 0 < numNodes) (hdvd : (binSize : ℤ) ∣ numNodes) :
    ((List.range (numBins numNodes).toNat).map fun i =>
        ((expectedCounts (probabilities numNodes expValues) numQueries).drop
          (i * binSize)).take binSize).flatten
      = expectedCounts (probabilities numNodes expValues) numQueries ∧
    (binnedCounts
        (expectedCounts (probabilities numNodes expValues) numQueries)
        numNodes).sum
      = (expectedCounts (probabilities numNodes expValues) numQueries).sum ∧
    (numBins 10).toNat = 1 := by
  have hflat := slices_flatten
    (expectedCounts (probabilities numNodes expValues) numQueries)
    (numBins numNodes).toNat
  have hcover := bins_cover numNodes hn.le hdvd
  have hlen := expectedCounts_length numNodes expValues numQueries
  have hpart : ((List.range (numBins numNodes).toNat).map fun i =>
      ((expectedCounts (probabilities numNodes expValues) numQueries).drop
        (i * binSize)).take binSize).flatten
      = expectedCounts (probabilities numNodes expValues) numQueries := by
    rw [hflat, hcover, ← hlen, List.take_length]
  refine ⟨hpart, ?_, by decide⟩
  rw [binnedCounts_sum_eq, hpart]

/-- Witness for C2 (amended) at `num_nodes = 10`, one sample `1/2`,
`num_queries = 1`. -/
theorem C2_bins_partition_witness :
    (0 : ℤ) < 10 ∧ ((binSize : ℤ) ∣ 10) ∧
    (((List.range (numBins 10).toNat).map fun i =>
        ((expectedCounts (probabilities 10 [(1 : ℚ) / 2]) 1).drop
          (i * binSize)).take binSize).flatten
      = expectedCounts (probabilities 10 [(1 : ℚ) / 2]) 1 ∧
    (binnedCounts (expectedCounts (probabilities 10 [(1 : ℚ) / 2]) 1) 10).sum
      = (expectedCounts (probabilities 10 [(1 : ℚ) / 2]) 1).sum ∧
    (numBins 10).toNat = 1) :=
  ⟨by decide, by decide, C2_bins_partition 10 1 [(1 : ℚ) / 2] (by decide) (by decide)⟩

/-- Claim C2 (counterexample): at the valid configuration
`num_nodes = 11`, `num_queries = 1`, with the single sample `21/2`
(label 10), the bins of width 10 do not cover node 10: the binned sum is
0 while the expected-count vector sums to 1. -/
theorem C2_not_partition_counterexample :
    (binnedCounts (expectedCounts (probabilities 11 [(21 : ℚ) / 2]) 1) 11).sum
      = 0 ∧
    (expectedCounts (probabilities 11 [(21 : ℚ) / 2]) 1).sum = 1 := by
  have hlab : scaledValues 11 [(21 : ℚ) / 2] = [10] := by
    norm_num [scaledValues, pyMod, truncToInt]
  have hnodes : nodes 11 = [0, 1, 2, 3, 4, 5, 6, 7, 8, 9, 10] := by decide
  have hprob : probabilities 11 [(21 : ℚ) / 2]
      = [0, 0, 0, 0, 0, 0, 0, 0, 0, 0, 1] := by
    rw [probabilities, hlab, hnodes]
    norm_num [nodeCounts, List.count_cons, List.count_nil]
  have hexp : expectedCounts (probabilities 11 [(21 : ℚ) / 2]) 1
      = [0, 0, 0, 0, 0, 0, 0, 0, 0, 0, 1] := by
    rw [expectedCounts, hprob]
    norm_num
  constructor
  · have hbin : (numBins 11).toNat = 1 := by decide
    rw [binnedCounts, hexp, hbin]
    have htake : (([0, 0, 0, 0, 0, 0, 0, 0, 0, 0, (1 : ℚ)].drop
        (0 * binSize)).take binSize) = [0, 0, 0, 0, 0, 0, 0, 0, 0, 0] := rfl
    have hr1 : List.range 1 = [0] := rfl
    rw [hr1, List.map_cons, List.map_nil, htake]
    norm_num
  · rw [hexp]
    norm_num

/-! ### The top-10 ranking (lines 154-158) -/

/-- The ranking relation is transitive. -/
lemma rankLe_trans : ∀ a b c : ℕ × ℚ,
    rankLe a b = true → rankLe b c = true → rankLe a c = true := by
  intro a b c hab hbc
  simp only [rankLe, decide_eq_true_eq] at hab hbc ⊢
  rcases hab with h | ⟨h1, h2⟩ <;> rcases hbc with h' | ⟨h1', h2'⟩
  · exact Or.inl (lt_trans h' h)
  · left
    rw [← h1']
    exact h
  · left
    rw [h1]
    exact h'
  · exact Or.inr ⟨h1.trans h1', le_trans h2 h2'⟩

/-- The ranking relation is total. -/
lemma rankLe_total : ∀ a b : ℕ × ℚ, (rankLe a b || rankLe b a) = true := by
  intro a b
  simp only [rankLe, Bool.or_eq_true, decide_eq_true_eq]
  rcases lt_trichotomy a.2 b.2 with h | h | h
  · exact Or.inr (Or.inl h)
  · rcases le_total a.1 b.1 with h' | h'
    · exact Or.inl (Or.inr ⟨h, h'⟩)
    · exact Or.inr (Or.inr ⟨h.symm, h'⟩)
  · exact Or.inl (Or.inl h)

/-- The sorted enumeration is a permutation of the enumeration. -/
lemma sortedProbs_perm (probs : List ℚ) :
    (sortedProbs probs).Perm probs.enum :=
  List.mergeSort_perm probs.enum rankLe

/-- The node ids in the sorted enumeration are pairwise distinct. -/
lemma sortedProbs_fst_nodup (probs : List ℚ) :
    ((sortedProbs probs).map Prod.fst).Nodup := by
  have hperm : ((sortedProbs probs).map Prod.fst).Perm
      (probs.enum.map Prod.fst) := (sortedProbs_perm probs).map Prod.fst
  rw [List.enum_map_fst] at hperm
  exact (List.nodup_range probs.length).perm hperm.symm

/-- The sorted enumeration is strictly ranked: descending probability,
ties broken by strictly ascending node id. -/
lemma sortedProbs_pairwise (probs : List ℚ) :
    (sortedProbs probs).Pairwise
      (fun a b => b.2 < a.2 ∨ (a.2 = b.2 ∧ a.1 < b.1)) := by
  have hs : (sortedProbs probs).Pairwise (fun a b => rankLe a b = true) :=
    List.sorted_mergeSort rankLe_trans rankLe_total probs.enum
  have hnd : (sortedProbs probs).Pairwise (fun a b => a.1 ≠ b.1) :=
    List.pairwise_map.mp (sortedProbs_fst_nodup probs)
  refine (hs.and hnd).imp ?_
  intro a b hab
  obtain ⟨hle, hne⟩ := hab
  simp only [rankLe, decide_eq_true_eq] at hle
  rcases hle with h | ⟨h1, h2⟩
  · exact Or.inl h
  · exact Or.inr ⟨h1, lt_of_le_of_ne h2 hne⟩

/-- Claim C3 (amended): the printed ranking has
`min 10 num_nodes` entries (10 whenever `num_nodes ≥ 10`), is sorted by
strictly descending probability with ties broken by ascending node id,
and every printed entry pairs a node with its probability-vector value
and the expected count `probability * num_queries`. -/
theorem C3_top_ranking (numNodes : ℤ) (numQueries : ℚ) (expValues : List ℚ)
    (hn : 0 < numNodes) :
    (topRanking (probabilities numNodes expValues)).length
      = min 10 numNodes.toNat ∧
    (topRanking (probabilities numNodes expValues)).Pairwise
      (fun a b => b.2 < a.2 ∨ (a.2 = b.2 ∧ a.1 < b.1)) ∧
    ∀ p ∈ reportEntries (probabilities numNodes expValues) numQueries,
      (probabilities numNodes expValues)[p.1]? = some p.2.1 ∧
      p.2.2 = p.2.1 * numQueries := by
  refine ⟨?_, ?_, ?_⟩
  · rw [topRanking, List.length_take, sortedProbs, List.length_mergeSort,
      List.enum_length, probabilities, List.length_map, nodes,
      List.length_map, List.length_range]
  · exact (sortedProbs_pairwise (probabilities numNodes expValues)).sublist
      (List.take_sublist 10 _)
  · intro p hp
    rw [reportEntries, List.mem_map] at hp
    obtain ⟨q, hq, rfl⟩ := hp
    have hq1 : q ∈ sortedProbs (probabilities numNodes expValues) :=
      (List.take_sublist 10 _).subset hq
    have hq2 : q ∈ (probabilities numNodes expValues).enum :=
      ((sortedProbs_perm _).mem_iff).mp hq1
    exact ⟨List.mem_enum_iff_getElem?.mp hq2, rfl⟩

/-- Witness for C3 (amended) at `num_nodes = 1`, no samples,
`num_queries = 0`. -/
theorem C3_top_ranking_witness :
    (0 : ℤ) < 1 ∧
    ((topRanking (probabilities 1 ([] : List ℚ))).length
        = min 10 (1 : ℤ).toNat ∧
      (topRanking (probabilities 1 ([] : List ℚ))).Pairwise
        (fun a b => b.2 < a.2 ∨ (a.2 = b.2 ∧ a.1 < b.1)) ∧
      ∀ p ∈ reportEntries (probabilities 1 ([] : List ℚ)) 0,
        (probabilities 1 ([] : List ℚ))[p.1]? = some p.2.1 ∧
        p.2.2 = p.2.1 * 0) :=
  ⟨by decide, C3_top_ranking 1 0 [] (by decide)⟩

/-- Claim C3 (counterexample): at the valid configuration
`num_nodes = 5` (one sample `1/2`), the printed ranking has 5 entries,
not 10. -/
theorem C3_not_ten_entries :
    (topRanking (probabilities 5 [(1 : ℚ) / 2])).length ≠ 10 := by
  rw [topRanking, List.length_take, sortedProbs, List.length_mergeSort,
    List.enum_length, probabilities, List.length_map, nodes,
    List.length_map, List.length_range]
  decide

/-! ### The statistics overlay (lines 77-78) and determinism -/

/-- Claim C10: when the probability vector attains its maximum `m`
(`probs.maximum = m`), the node reported on line 77 holds probability
exactly `m`, `m` bounds every entry, and every position holding `m` is at
or after the reported node — so the report names the smallest node id
attaining the maximum. -/
theorem C10_most_likely_node (probs : List ℚ) (m : ℚ)
    (hm : probs.maximum = (m : WithBot ℚ)) :
    probs[maxProbNode probs]? = some m ∧
    (∀ p ∈ probs, p ≤ m) ∧
    ∀ j, j < probs.length → probs[j]? = some m → maxProbNode probs ≤ j := by
  have hmem : m ∈ probs := List.maximum_mem hm
  have hidx : probs.indexOf m < probs.length := List.indexOf_lt_length.mpr hmem
  have hnode : maxProbNode probs = probs.indexOf m := by
    rw [maxProbNode, npArgmax, hm, WithBot.recBotCoe_coe]
  refine ⟨?_, ?_, ?_⟩
  · rw [hnode, List.getElem?_eq_getElem hidx, List.getElem_indexOf hidx]
  · intro p hp
    exact List.le_maximum_of_mem hp hm
  · intro j hj hjm
    rw [hnode]
    by_contra hcon
    push_neg at hcon
    have hfind : probs.indexOf m = probs.findIdx (· == m) := rfl
    rw [hfind] at hcon
    have hbeq := List.not_of_lt_findIdx hcon
    rw [List.getElem?_eq_getElem hj] at hjm
    have heq : probs[j] = m := Option.some_inj.mp hjm
    rw [heq] at hbeq
    simp at hbeq

/-- Witness for C10 on the vector `[0, 1, 1]`, whose maximum 1 is
attained at positions 1 and 2: the reported node is position 1. -/
theorem C10_most_likely_node_witness :
    List.maximum [(0 : ℚ), 1, 1] = ((1 : ℚ) : WithBot ℚ) ∧
    ([(0 : ℚ), 1, 1][maxProbNode [(0 : ℚ), 1, 1]]? = some 1 ∧
      (∀ p ∈ [(0 : ℚ), 1, 1], p ≤ 1) ∧
      ∀ j, j < [(0 : ℚ), 1, 1].length →
        [(0 : ℚ), 1, 1][j]? = some 1 → maxProbNode [(0 : ℚ), 1, 1] ≤ j) :=
  ⟨by decide, C10_most_likely_node [(0 : ℚ), 1, 1] 1 (by decide)⟩

/-- Claim C7: the estimator is deterministic — the seeded generator is a
fixed function of the seed, and two runs with equal
(seed, node count, rate, sample count) produce identical results. -/
theorem C7_deterministic (sampler : ℤ → ℚ → ℕ → List ℚ)
    (n₁ n₂ : ℤ) (lp₁ lp₂ : ℚ) (s₁ s₂ : ℤ) (c₁ c₂ : ℕ)
    (hn : n₁ = n₂) (hl : lp₁ = lp₂) (hs : s₁ = s₂) (hc : c₁ = c₂) :
    runEstimator sampler n₁ lp₁ s₁ c₁ = runEstimator sampler n₂ lp₂ s₂ c₂ := by
  subst hn
  subst hl
  subst hs
  subst hc
  rfl

/-- Witness for C7: two runs with the same concrete configuration and
the same sampler coincide. -/
theorem C7_deterministic_witness :
    runEstimator (fun _ _ k => List.replicate k (0 : ℚ)) 2 1 42 3
      = runEstimator (fun _ _ k => List.replicate k (0 : ℚ)) 2 1 42 3 :=
  C7_deterministic (fun _ _ k => List.replicate k (0 : ℚ))
    2 2 1 1 42 42 3 3 rfl rfl rfl rfl
